import Mathlib

/-!
Verification of the nitro-enc-svc field-level PII encryption service.

This file gives a shallow embedding, in Lean 4, of the core of the
service: the cipher layer (AES-256-GCM-SIV field encryption and the
textual token format, crates/enclave/src/crypto/cipher.rs), the DEK
store (crates/enclave/src/dek/store.rs), the schema resolver
(crates/enclave/src/schema/resolver.rs) and the request handlers with
the PII traversal (crates/enclave/src/server/handlers.rs).

Machine integers (u8, u32, usize) are modelled as Nat with explicit
reductions modulo 256 and 2 to the 32 where the Rust code wraps; byte
strings are List Nat; JSON values are an inductive type mirroring
serde_json's Value; fallible operations return Except or Option; the
OS random nonce drawn inside encrypt_field is passed in explicitly,
and the nonce source used by the traversal is a function from a draw
counter to the drawn bytes.
-/

/-- A JSON value, mirroring serde_json's Value. Objects are modelled as
association lists in document order; serde_json maps have unique keys, and
every lookup and update below touches only the first binding of a name, so
the model agrees with the map semantics. Numbers are collapsed to Int:
the pipeline never inspects numeric content. -/
inductive Json where
  | null : Json
  | bool (b : Bool) : Json
  | num (n : Int) : Json
  | str (s : String) : Json
  | arr (items : List Json) : Json
  | obj (fields : List (String × Json)) : Json

/-- First binding of a name in an object, as map.get in the Rust code. -/
def lookupField (name : String) : List (String × Json) → Option Json
  | [] => none
  | (k, v) :: tl => if k = name then some v else lookupField name tl

/-- One step of a concrete JSON pointer: an object field or an array index. -/
inductive Step where
  | field (name : String) : Step
  | idx (i : Nat) : Step

/-- Read the sub-value of a JSON document at a concrete pointer. -/
def getAt : Json → List Step → Option Json
  | v, [] => some v
  | .obj fs, .field n :: p => match lookupField n fs with
      | some c => getAt c p
      | none => none
  | .arr xs, .idx i :: p => match xs.get? i with
      | some c => getAt c p
      | none => none
  | _, _ :: _ => none

/-- Segments of a dot-notation PII field path (handlers.rs, PathSegment). -/
inductive PathSegment where
  | key (k : String) : PathSegment
  | arrayItem : PathSegment
deriving DecidableEq

/-- Rust str::split on a single character: splits at every occurrence,
keeping empty pieces; the empty string yields one empty piece. -/
def splitAll (c : Char) : List Char → List (List Char)
  | [] => [[]]
  | x :: xs =>
    let r := splitAll c xs
    if x = c then [] :: r
    else match r with
      | h :: t => (x :: h) :: t
      | [] => [[x]]

/-- Rust str::strip_suffix with the two-character suffix consisting of an
opening and a closing square bracket. -/
def stripBrackets (part : List Char) : Option (List Char) :=
  match part.reverse with
  | ']' :: '[' :: rest => some rest.reverse
  | _ => none

/-- Parse a dot-notation PII path into segments (handlers.rs, parse_path).
A part that ends in the two bracket characters contributes a key segment
for the stripped name followed by an array-item segment; any other part
contributes a single key segment. -/
def parse_path (path : String) : List PathSegment :=
  (splitAll '.' path.data).foldr
    (fun part acc =>
      (match stripBrackets part with
        | some key => [PathSegment.key (String.mk key), PathSegment.arrayItem]
        | none => [PathSegment.key (String.mk part)]) ++ acc)
    []

/-! ## Base64url without padding (the base64 crate's URL_SAFE_NO_PAD engine)

Encoding takes bytes three at a time into four alphabet characters, with a
two- or three-character tail for one or two leftover bytes. Decoding is the
inverse; it rejects characters outside the alphabet, an input length that is
1 modulo 4, and nonzero trailing bits in a final partial group (the engine's
default strict mode). -/

/-- The URL-safe base64 alphabet. -/
def b64Alphabet : List Char :=
  ['A','B','C','D','E','F','G','H','I','J','K','L','M',
   'N','O','P','Q','R','S','T','U','V','W','X','Y','Z',
   'a','b','c','d','e','f','g','h','i','j','k','l','m',
   'n','o','p','q','r','s','t','u','v','w','x','y','z',
   '0','1','2','3','4','5','6','7','8','9','-','_']

/-- Character for a six-bit value. -/
def sextetChar (s : Nat) : Char := b64Alphabet.getD s 'A'

def charSextetAux : List Char → Nat → Char → Option Nat
  | [], _, _ => none
  | x :: xs, i, c => if x = c then some i else charSextetAux xs (i + 1) c

/-- Six-bit value of an alphabet character; none outside the alphabet. -/
def charSextet (c : Char) : Option Nat := charSextetAux b64Alphabet 0 c

/-- Base64url-no-pad encoding of a byte string. -/
def b64encode : List Nat → List Char
  | [] => []
  | [b0] => [sextetChar (b0 / 4), sextetChar (b0 % 4 * 16)]
  | [b0, b1] => [sextetChar (b0 / 4), sextetChar (b0 % 4 * 16 + b1 / 16),
                 sextetChar (b1 % 16 * 4)]
  | b0 :: b1 :: b2 :: rest =>
    sextetChar (b0 / 4) :: sextetChar (b0 % 4 * 16 + b1 / 16) ::
    sextetChar (b1 % 16 * 4 + b2 / 64) :: sextetChar (b2 % 64) :: b64encode rest

/-- Base64url-no-pad decoding; none on any malformed input. -/
def b64decode : List Char → Option (List Nat)
  | [] => some []
  | [_] => none
  | [c0, c1] =>
    match charSextet c0, charSextet c1 with
    | some s0, some s1 =>
      if s1 % 16 = 0 then some [s0 * 4 + s1 / 16] else none
    | _, _ => none
  | [c0, c1, c2] =>
    match charSextet c0, charSextet c1, charSextet c2 with
    | some s0, some s1, some s2 =>
      if s2 % 4 = 0 then some [s0 * 4 + s1 / 16, s1 % 16 * 16 + s2 / 4] else none
    | _, _, _ => none
  | c0 :: c1 :: c2 :: c3 :: rest =>
    match charSextet c0, charSextet c1, charSextet c2, charSextet c3,
          b64decode rest with
    | some s0, some s1, some s2, some s3, some bs =>
      some ([s0 * 4 + s1 / 16, s1 % 16 * 16 + s2 / 4, s2 % 4 * 64 + s3] ++ bs)
    | _, _, _, _, _ => none

/-! ## The encrypted field token (cipher.rs, EncryptedField) -/

/-- Errors produced by the cipher layer (cipher.rs, CipherError). -/
inductive CipherError where
  | invalidKeyLength : CipherError
  | aeadFailure : CipherError
  | invalidFormat : CipherError
deriving DecidableEq

/-- A parsed, encrypted field value: raw nonce bytes paired with raw
ciphertext-plus-tag bytes (cipher.rs, EncryptedField). The Rust nonce field
is a 12-byte array; here it is a byte list, and from_str enforces the
length. -/
structure EncryptedField where
  nonce : List Nat
  ciphertext : List Nat
deriving DecidableEq

/-- Rust str::splitn with a character separator: at most n pieces, the last
piece holding the unsplit remainder. -/
def splitn (n : Nat) (c : Char) (s : List Char) : List (List Char) :=
  match n with
  | 0 => []
  | 1 => [s]
  | n + 2 =>
    match spanUntil c s with
    | (pre, none) => [pre]
    | (pre, some rest) => pre :: splitn (n + 1) c rest
where
  /-- Characters before the first separator, and the remainder after it. -/
  spanUntil (c : Char) : List Char → List Char × Option (List Char)
    | [] => ([], none)
    | x :: xs =>
      if x = c then ([], some xs)
      else
        let (p, r) := spanUntil c xs
        (x :: p, r)

/-- Canonical string representation of a token: the version tag, the
base64url nonce and the base64url ciphertext joined by dots
(cipher.rs, EncryptedField::to_string_repr). -/
def EncryptedField.to_string_repr (f : EncryptedField) : String :=
  String.mk (['v', '1', '.'] ++ b64encode f.nonce ++ ['.'] ++ b64encode f.ciphertext)

/-- Parse an encrypted field string (cipher.rs, EncryptedField::from_str):
split into at most three dot-separated pieces, require exactly three with
the first equal to the version tag, base64url-decode the nonce and require
twelve bytes, then base64url-decode the ciphertext. -/
def EncryptedField.from_str (s : String) : Except CipherError EncryptedField :=
  let parts := splitn 3 '.' s.data
  if parts.length ≠ 3 then .error .invalidFormat
  else if parts.getD 0 [] ≠ ['v', '1'] then .error .invalidFormat
  else
    match b64decode (parts.getD 1 []) with
    | none => .error .invalidFormat
    | some nonceBytes =>
      if nonceBytes.length ≠ 12 then .error .invalidFormat
      else
        match b64decode (parts.getD 2 []) with
        | none => .error .invalidFormat
        | some ct => .ok ⟨nonceBytes, ct⟩

/-! ## AES-256-GCM-SIV (RFC 8452), as used by the aes-gcm-siv crate

The crate is an external dependency; it is embedded here at the level of
the RFC: AES-256 as the block cipher (FIPS 197, with the S-box computed
algebraically from the field inverse and the affine map), POLYVAL over
GF(2 pow 128), the derive-keys step, the SIV tag and the counter-mode
keystream. Bytes are Nat; byte-level bitwise operations on disjoint bit
ranges are written with xor, division and remainder by powers of two. -/

/-- Multiplication by x in GF(2 pow 8) modulo the AES polynomial. -/
def gxtime (b : Nat) : Nat := (2 * b ^^^ (if 128 ≤ b then 27 else 0)) % 256

def gmulAux : Nat → Nat → Nat → Nat
  | 0, _, _ => 0
  | f + 1, a, b => (if b % 2 = 1 then a else 0) ^^^ gmulAux f (gxtime a) (b / 2)

/-- Multiplication in GF(2 pow 8). -/
def gmul (a b : Nat) : Nat := gmulAux 8 a b

/-- Powers in GF(2 pow 8). -/
def gpow (b : Nat) : Nat → Nat
  | 0 => 1
  | n + 1 => gmul b (gpow b n)

/-- Multiplicative inverse in GF(2 pow 8) (zero maps to zero). -/
def ginv (b : Nat) : Nat := gpow b 254

/-- Left rotation of a byte by k bits. -/
def rotl8 (b k : Nat) : Nat := b * 2 ^ k % 256 ^^^ b / 2 ^ (8 - k)

/-- The AES S-box: field inverse followed by the affine transformation. -/
def sbox (b : Nat) : Nat :=
  let x := ginv b
  x ^^^ rotl8 x 1 ^^^ rotl8 x 2 ^^^ rotl8 x 3 ^^^ rotl8 x 4 ^^^ 99

def subWord (w : List Nat) : List Nat := w.map sbox

def rotWord (w : List Nat) : List Nat := w.drop 1 ++ w.take 1

def xorWord (a b : List Nat) : List Nat := List.zipWith Nat.xor a b

/-- Round constant for the key schedule. -/
def rconVal (i : Nat) : Nat := gpow 2 (i - 1)

def chunks4 : List Nat → List (List Nat)
  | a :: b :: c :: d :: rest => [a, b, c, d] :: chunks4 rest
  | _ => []

/-- One step of the AES-256 key schedule: word i from the words so far. -/
def nextWord (ws : List (List Nat)) (i : Nat) : List Nat :=
  let prev := ws.getD (i - 1) []
  let temp :=
    if i % 8 = 0 then xorWord (subWord (rotWord prev)) [rconVal (i / 8), 0, 0, 0]
    else if i % 8 = 4 then subWord prev
    else prev
  xorWord (ws.getD (i - 8) []) temp

/-- The sixty four-byte words of the expanded AES-256 key. -/
def keyWords (key : List Nat) : List (List Nat) :=
  (List.range 52).foldl (fun ws j => ws ++ [nextWord ws (j + 8)]) (chunks4 key)

/-- Round key r (sixteen bytes) of the expanded key. -/
def roundKey (key : List Nat) (r : Nat) : List Nat :=
  let ws := keyWords key
  ws.getD (4 * r) [] ++ ws.getD (4 * r + 1) [] ++ ws.getD (4 * r + 2) [] ++
    ws.getD (4 * r + 3) []

/-- SubBytes and ShiftRows fused on the flat sixteen-byte state. -/
def subShift (st : List Nat) : List Nat :=
  let a := fun i => sbox (st.getD i 0)
  [a 0, a 5, a 10, a 15, a 4, a 9, a 14, a 3,
   a 8, a 13, a 2, a 7, a 12, a 1, a 6, a 11]

/-- MixColumns on one column. -/
def mixColumn (a0 a1 a2 a3 : Nat) : List Nat :=
  [gxtime a0 ^^^ (gxtime a1 ^^^ a1) ^^^ a2 ^^^ a3,
   a0 ^^^ gxtime a1 ^^^ (gxtime a2 ^^^ a2) ^^^ a3,
   a0 ^^^ a1 ^^^ gxtime a2 ^^^ (gxtime a3 ^^^ a3),
   gxtime a0 ^^^ a0 ^^^ a1 ^^^ a2 ^^^ gxtime a3]

/-- MixColumns on the flat sixteen-byte state. -/
def mixColumns (st : List Nat) : List Nat :=
  let g := fun i => st.getD i 0
  mixColumn (g 0) (g 1) (g 2) (g 3) ++ mixColumn (g 4) (g 5) (g 6) (g 7) ++
    mixColumn (g 8) (g 9) (g 10) (g 11) ++ mixColumn (g 12) (g 13) (g 14) (g 15)

/-- AddRoundKey on the flat sixteen-byte state. -/
def addRoundKey (st rk : List Nat) : List Nat :=
  let f := fun i => st.getD i 0 ^^^ rk.getD i 0
  [f 0, f 1, f 2, f 3, f 4, f 5, f 6, f 7,
   f 8, f 9, f 10, f 11, f 12, f 13, f 14, f 15]

/-- AES-256 encryption of a single sixteen-byte block. -/
def aesBlock (key block : List Nat) : List Nat :=
  let rk := roundKey key
  let st0 := addRoundKey block (rk 0)
  let stN := (List.range 13).foldl
    (fun st r => addRoundKey (mixColumns (subShift st)) (rk (r + 1))) st0
  addRoundKey (subShift stN) (rk 14)

/-- Little-endian byte value of a byte list. -/
def bytesToNatLE : List Nat → Nat
  | [] => 0
  | b :: rest => b % 256 + 256 * bytesToNatLE rest

/-- The n low-order bytes of a value, little-endian. -/
def natToBytesLE : Nat → Nat → List Nat
  | 0, _ => []
  | n + 1, v => v % 256 :: natToBytesLE n (v / 256)

/-- Multiplication by x in GF(2 pow 128) modulo the POLYVAL polynomial. -/
def mulxP (a : Nat) : Nat :=
  let s := 2 * a
  if 2 ^ 128 ≤ s then (s - 2 ^ 128) ^^^ (2 ^ 127 + 2 ^ 126 + 2 ^ 121 + 1) else s

def pmulAux : Nat → Nat → Nat → Nat
  | 0, _, _ => 0
  | f + 1, a, b => (if b % 2 = 1 then a else 0) ^^^ pmulAux f (mulxP a) (b / 2)

/-- Multiplication in GF(2 pow 128) with the POLYVAL bit order. -/
def pmul (a b : Nat) : Nat := pmulAux 128 a b

/-- The POLYVAL dot operation: a times b times the inverse of x pow 128. -/
def pdot (a b : Nat) : Nat :=
  pmul (pmul a b) (2 ^ 127 + 2 ^ 124 + 2 ^ 121 + 2 ^ 114 + 1)

/-- Zero-pad a byte string to a multiple of sixteen bytes. -/
def pad16 (l : List Nat) : List Nat :=
  l ++ List.replicate ((16 - l.length % 16) % 16) 0

def chunksOf16 : List Nat → List (List Nat)
  | [] => []
  | x :: rest => (x :: rest).take 16 :: chunksOf16 ((x :: rest).drop 16)
termination_by l => l.length
decreasing_by simp; omega

/-- POLYVAL of a byte string under authentication key hBytes, as sixteen
little-endian bytes. -/
def polyvalBytes (hBytes data : List Nat) : List Nat :=
  let h := bytesToNatLE hBytes
  natToBytesLE 16
    ((chunksOf16 (pad16 data)).foldl (fun acc blk => pdot (acc ^^^ bytesToNatLE blk) h) 0)

/-- One half-block of the RFC 8452 key derivation. -/
def deriveKeyHalf (key nonce : List Nat) (i : Nat) : List Nat :=
  (aesBlock key (natToBytesLE 4 i ++ nonce)).take 8

/-- The sixteen-byte message authentication key. -/
def deriveAuthKey (key nonce : List Nat) : List Nat :=
  deriveKeyHalf key nonce 0 ++ deriveKeyHalf key nonce 1

/-- The thirty-two-byte message encryption key. -/
def deriveEncKey (key nonce : List Nat) : List Nat :=
  deriveKeyHalf key nonce 2 ++ deriveKeyHalf key nonce 3 ++
    deriveKeyHalf key nonce 4 ++ deriveKeyHalf key nonce 5

/-- The SIV tag over a plaintext (empty associated data): POLYVAL of the
padded plaintext and the length block, xored with the nonce, top bit of the
last byte cleared, then encrypted with the message encryption key. -/
def sivTag (key nonce p : List Nat) : List Nat :=
  let authKey := deriveAuthKey key nonce
  let lenBlk := natToBytesLE 8 0 ++ natToBytesLE 8 (8 * p.length)
  let s := polyvalBytes authKey (pad16 p ++ lenBlk)
  let s' := List.zipWith Nat.xor (s.take 12) nonce ++ s.drop 12
  let s'' := s'.take 15 ++ [s'.getD 15 0 % 128]
  aesBlock (deriveEncKey key nonce) s''

/-- Initial counter block: the tag with the top bit of the last byte set. -/
def counterBlock (tag : List Nat) : List Nat :=
  tag.take 15 ++ [128 + tag.getD 15 0 % 128]

/-- Counter block i: the first four bytes as a little-endian thirty-two-bit
counter incremented by i, the rest unchanged. -/
def ctrBlockAt (cb : List Nat) (i : Nat) : List Nat :=
  natToBytesLE 4 ((bytesToNatLE (cb.take 4) + i) % 4294967296) ++ cb.drop 4

/-- The first len bytes of the AES-CTR keystream from a counter block. -/
def keystream (encKey cb : List Nat) (len : Nat) : List Nat :=
  (((List.range ((len + 15) / 16)).map fun i => aesBlock encKey (ctrBlockAt cb i)).flatten).take len

/-- RFC 8452 encryption with empty associated data: compute the tag, then
append it to the counter-mode encryption of the plaintext. -/
def sivEncrypt (key nonce p : List Nat) : List Nat :=
  let tag := sivTag key nonce p
  List.zipWith Nat.xor p (keystream (deriveEncKey key nonce) (counterBlock tag) p.length) ++ tag

/-- RFC 8452 decryption with empty associated data: split off the tag,
decrypt in counter mode, recompute the expected tag and compare. -/
def sivDecrypt (key nonce ct : List Nat) : Except CipherError (List Nat) :=
  if ct.length < 16 then .error .aeadFailure
  else
    let tag := ct.drop (ct.length - 16)
    let body := ct.take (ct.length - 16)
    let p := List.zipWith Nat.xor body
      (keystream (deriveEncKey key nonce) (counterBlock tag) body.length)
    if sivTag key nonce p = tag then .ok p else .error .aeadFailure

/-- Encrypt a plaintext field (cipher.rs, encrypt_field). The random
ninety-six-bit nonce the Rust code draws from the OS generator is the
explicit nonce argument; the key length check mirrors build_cipher. -/
def encrypt_field (plaintext dek nonce : List Nat) : Except CipherError EncryptedField :=
  if dek.length = 32 then .ok ⟨nonce, sivEncrypt dek nonce plaintext⟩
  else .error .invalidKeyLength

/-- Decrypt an encrypted field back to plaintext bytes
(cipher.rs, decrypt_field). -/
def decrypt_field (f : EncryptedField) (dek : List Nat) : Except CipherError (List Nat) :=
  if dek.length = 32 then sivDecrypt dek f.nonce f.ciphertext
  else .error .invalidKeyLength

/-! ## PII field traversal (handlers.rs) -/

/-- UTF-8 bytes of one character. -/
def charUtf8 (c : Char) : List Nat :=
  let n := c.toNat
  if n < 128 then [n]
  else if n < 2048 then [192 + n / 64, 128 + n % 64]
  else if n < 65536 then [224 + n / 4096, 128 + n / 64 % 64, 128 + n % 64]
  else [240 + n / 262144, 128 + n / 4096 % 64, 128 + n / 64 % 64, 128 + n % 64]

/-- UTF-8 bytes of a string (Rust str::as_bytes). -/
def strBytes (s : String) : List Nat := (s.data.map charUtf8).flatten

/-- The object part of the traversal: walk the bindings, and on the first
binding whose name is the requested key apply the recursive traversal f to
its value, leaving every other binding untouched (handlers.rs uses
map.get_mut, and serde_json object keys are unique). The Nat component
threads the nonce draw counter. -/
def encObjWith (f : Json → Nat → Except CipherError (Json × Nat)) (key : String) :
    List (String × Json) → Nat → Except CipherError (List (String × Json) × Nat)
  | [], k => .ok ([], k)
  | (name, child) :: tl, k =>
    if name = key then
      match f child k with
      | .ok (child', k') => .ok ((name, child') :: tl, k')
      | .error e => .error e
    else
      match encObjWith f key tl k with
      | .ok (tl', k') => .ok ((name, child) :: tl', k')
      | .error e => .error e

/-- The array part of the traversal: apply the recursive traversal f to
every element in order, threading the nonce draw counter. -/
def encArrWith (f : Json → Nat → Except CipherError (Json × Nat)) :
    List Json → Nat → Except CipherError (List Json × Nat)
  | [], k => .ok ([], k)
  | x :: xs, k =>
    match f x k with
    | .ok (x', k') =>
      match encArrWith f xs k' with
      | .ok (xs', k'') => .ok (x' :: xs', k'')
      | .error e => .error e
    | .error e => .error e

/-- Recursively navigate a value along the segments and encrypt any string
leaf found at the end of the path (handlers.rs, encrypt_at_path). ns gives
the nonce drawn by the cipher at each draw counter; the counter only moves
when a string is actually encrypted. -/
def encrypt_at_path (dek : List Nat) (ns : Nat → List Nat) :
    List PathSegment → Json → Nat → Except CipherError (Json × Nat)
  | [], v, k =>
    match v with
    | .str s =>
      (match encrypt_field (strBytes s) dek (ns k) with
       | .ok f => .ok (.str f.to_string_repr, k + 1)
       | .error e => .error e)
    | v' => .ok (v', k)
  | .key key :: rest, v, k =>
    match v with
    | .obj fields =>
      (match encObjWith (fun c k' => encrypt_at_path dek ns rest c k') key fields k with
       | .ok (fs, k') => .ok (.obj fs, k')
       | .error e => .error e)
    | v' => .ok (v', k)
  | .arrayItem :: rest, v, k =>
    match v with
    | .arr items =>
      (match encArrWith (fun c k' => encrypt_at_path dek ns rest c k') items k with
       | .ok (xs, k') => .ok (.arr xs, k')
       | .error e => .error e)
    | v' => .ok (v', k)
termination_by segs _ _ => segs.length

/-- Encrypt all PII string fields in a payload according to the path set
(handlers.rs, encrypt_pii_fields). The Rust path set is a HashSet; its
iteration order is modelled by the list order. -/
def encrypt_pii_fields (dek : List Nat) (ns : Nat → List Nat) :
    List String → Json → Nat → Except CipherError (Json × Nat)
  | [], payload, k => .ok (payload, k)
  | path :: rest, payload, k =>
    match encrypt_at_path dek ns (parse_path path) payload k with
    | .ok (payload', k') => encrypt_pii_fields dek ns rest payload' k'
    | .error e => .error e

/-! ## DEK store (dek/store.rs) -/

/-- Errors produced by the DEK layer (store.rs, DekError). -/
inductive DekError where
  | notInitialised : DekError
  | invalidLength (n : Nat) : DekError
deriving DecidableEq

/-- The store state: the cached key bytes, if any. The Rust store wraps this
in an Arc-RwLock; its sequential semantics is the explicit state here. -/
abbrev DekStoreState := Option (List Nat)

/-- True if a DEK is currently cached (store.rs, DekStore::is_ready). -/
def DekStore.is_ready (st : DekStoreState) : Bool := st.isSome

/-- Store (or replace) the current DEK (store.rs, DekStore::store): reject
any slice that is not exactly thirty-two bytes, leaving the state as it
was; otherwise install a copy of the bytes. Returns the call's result
paired with the state after the call. -/
def DekStore.store (st : DekStoreState) (keyBytes : List Nat) :
    Except DekError Unit × DekStoreState :=
  if keyBytes.length ≠ 32 then (.error (.invalidLength keyBytes.length), st)
  else (.ok (), some keyBytes)

/-- Borrow a copy of the current DEK bytes (store.rs, DekStore::current). -/
def DekStore.current (st : DekStoreState) : Except DekError (List Nat) :=
  match st with
  | none => .error .notInitialised
  | some b => .ok b

/-! ## Request handlers (handlers.rs) -/

/-- Health response body (common/src/protocol.rs, HealthResponse). -/
structure HealthResponse where
  status : String
  dek_ready : Bool
  schemas_loaded : Nat
deriving DecidableEq

/-- The health handler (handlers.rs, health): status 200 with body status
ok when the DEK is loaded and at least one schema is cached, else 503 with
body status degraded; both bodies carry the actual readiness values. -/
def health (dekState : DekStoreState) (schemasLoaded : Nat) : Nat × HealthResponse :=
  let dekReady := DekStore.is_ready dekState
  if dekReady = true ∧ 0 < schemasLoaded then (200, ⟨"ok", dekReady, schemasLoaded⟩)
  else (503, ⟨"degraded", dekReady, schemasLoaded⟩)

/-- Outcome of the encrypt handler: an error response with its HTTP status,
machine code and message, or the transformed payload with status 200. -/
inductive EncryptResult where
  | errorResp (status : Nat) (code : String) (message : String) : EncryptResult
  | success (payload : Json) : EncryptResult

/-- The http crate accepts a header byte for to_str iff it is visible
ASCII: at least 32 and below 127. -/
def visibleAscii (b : Nat) : Bool := 32 ≤ b && b < 127

/-- HeaderValue::to_str: the bytes as a string when all are visible ASCII. -/
def headerToStr (bytes : List Nat) : Option String :=
  if bytes.all visibleAscii then some (String.mk (bytes.map Char.ofNat)) else none

/-- First binding of a schema name in the cache table. -/
def lookupSchema (name : String) : List (String × List String) → Option (List String)
  | [] => none
  | (k, v) :: tl => if k = name then some v else lookupSchema name tl

/-- The encrypt handler (handlers.rs, encrypt). Inputs: the configured
schema header name, the raw header value if the header is present, the
schema cache as a table from name to PII path set, the DEK store state, the
nonce source, and the request payload. The checks happen in the order of
the Rust code: header presence, header decodability, schema lookup, DEK
borrow, then the traversal. -/
def encrypt_handler (hname : String) (header : Option (List Nat))
    (cache : List (String × List String)) (dekState : DekStoreState)
    (ns : Nat → List Nat) (payload : Json) : EncryptResult :=
  match header with
  | none => .errorResp 400 "bad_request" ("missing " ++ hname ++ " header")
  | some bytes =>
    match headerToStr bytes with
    | none => .errorResp 400 "bad_request"
        (hname ++ " header contains non-ASCII characters")
    | some schemaName =>
      match lookupSchema schemaName cache with
      | none => .errorResp 400 "bad_request" ("unknown schema: " ++ schemaName)
      | some piiPaths =>
        match DekStore.current dekState with
        | .error _ => .errorResp 503 "service_unavailable" "DEK not yet initialised"
        | .ok dek =>
          match encrypt_pii_fields dek ns piiPaths payload 0 with
          | .error _ => .errorResp 500 "internal_error" "encryption failed"
          | .ok (payload', _) => .success payload'

/-! ## Schema resolver (schema/resolver.rs)

The openapiv3 types are embedded as one inductive: a node is either an
inline schema (its x-pii extension read as a boolean defaulting to false,
plus its kind) or a reference string, exactly the shape ReferenceOr of
Schema takes after reading schema_data.extensions. -/

/-- ReferenceOr of Schema, with the schema flattened to its x-pii flag and
its kind: an object with properties, an array with an optional items
schema, or any other kind (scalars, compositions). -/
inductive RRefOr where
  | objSchema (xPii : Bool) (props : List (String × RRefOr)) : RRefOr
  | arrSchema (xPii : Bool) (items : Option RRefOr) : RRefOr
  | otherSchema (xPii : Bool) : RRefOr
  | refTo (reference : String) : RRefOr

/-- An OpenAPI document: the components-schemas map, when present. -/
structure RApi where
  components : Option (List (String × RRefOr))

/-- The x-pii extension of a resolved schema node. -/
def RRefOr.xPiiOf : RRefOr → Bool
  | .objSchema b _ => b
  | .arrSchema b _ => b
  | .otherSchema b => b
  | .refTo _ => false

/-- First binding of a name in the components map. -/
def lookupComponent (name : String) : List (String × RRefOr) → Option RRefOr
  | [] => none
  | (k, v) :: tl => if k = name then some v else lookupComponent name tl

/-- The local component-schema reference target, when the reference string
has the required shape. -/
def refTarget (reference : String) : Option String :=
  let pat := "#/components/schemas/".data
  if reference.data.take pat.length = pat
  then some (String.mk (reference.data.drop pat.length))
  else none

/-- Resolve a reference string against components-schemas (resolver.rs,
resolve_ref): none when the format is not recognised, the schema is absent,
or the target is itself a reference. -/
def resolve_ref (api : RApi) (reference : String) : Option RRefOr :=
  match refTarget reference with
  | none => none
  | some name =>
    match api.components with
    | none => none
    | some schemas =>
      match lookupComponent name schemas with
      | none => none
      | some (.refTo _) => none
      | some s => some s

/-- A property or items node, resolved: an inline schema stands for itself,
a reference goes through resolve_ref. -/
def resolveNode (api : RApi) : RRefOr → Option RRefOr
  | .refTo r => resolve_ref api r
  | s => some s

mutual

/-- Fuel-indexed walk of a schema (resolver.rs, walk_schema). The Rust
function recurses with no cycle protection; the fuel counts source-level
recursive calls and the walk answers none exactly when the recursion
exceeds the given depth, so a document on which every fuel yields none is a
document on which the Rust recursion never terminates. Emitted paths are
collected in walk order; the caller treats them as a set. -/
def walk_schema_fuel (api : RApi) : Nat → RRefOr → String → Option (List String)
  | 0, _, _ => none
  | n + 1, s, pre =>
    match s with
    | .objSchema _ props => walkProps api n props pre
    | .arrSchema _ items =>
      match items with
      | none => some []
      | some itemsRef =>
        let arrayPath := if pre = "" then "[]" else pre ++ "[]"
        match resolveNode api itemsRef with
        | none => some []
        | some itemsSchema =>
          match walk_schema_fuel api n itemsSchema arrayPath with
          | none => none
          | some sub =>
            some ((if itemsSchema.xPiiOf then [arrayPath] else []) ++ sub)
    | _ => some []

/-- The property loop of walk_schema, walking each resolved property with
the extended path; an unresolvable property is skipped. -/
def walkProps (api : RApi) (n : Nat) :
    List (String × RRefOr) → String → Option (List String)
  | [], _ => some []
  | (name, childRef) :: tl, pre =>
    let path := if pre = "" then name else pre ++ "." ++ name
    let contrib : Option (List String) :=
      match resolveNode api childRef with
      | none => some []
      | some child =>
        match walk_schema_fuel api n child path with
        | none => none
        | some sub => some ((if child.xPiiOf then [path] else []) ++ sub)
    match contrib with
    | none => none
    | some c =>
      match walkProps api n tl pre with
      | none => none
      | some rest => some (c ++ rest)

end

/-- The top-level loop of resolve_pii_paths: only inline entries of the
components map are walked. -/
def walkTop (api : RApi) (n : Nat) : List (String × RRefOr) → Option (List String)
  | [] => some []
  | (_, .refTo _) :: tl => walkTop api n tl
  | (_, s) :: tl =>
    match walk_schema_fuel api n s "" with
    | none => none
    | some c =>
      match walkTop api n tl with
      | none => none
      | some rest => some (c ++ rest)

/-- Fuel-indexed resolve_pii_paths (resolver.rs): walk every inline schema
in components-schemas from the empty prefix; a document without components
yields the empty set. -/
def resolve_pii_paths_fuel (api : RApi) (n : Nat) : Option (List String) :=
  match api.components with
  | none => some []
  | some schemas => walkTop api n schemas

/-! ## Theorems -/

/-- C10: from_str imposes no lower bound on the ciphertext segment: the
concrete input made of the version tag, a base64url twelve-byte zero nonce
and an empty third segment decodes successfully to a token whose ciphertext
is empty, shorter than the sixteen-byte authentication tag every genuine
token contains. -/
theorem from_str_accepts_empty_ciphertext :
    EncryptedField.from_str "v1.AAAAAAAAAAAAAAAA." =
      .ok ⟨List.replicate 12 0, []⟩ ∧
    (EncryptedField.mk (List.replicate 12 0) []).ciphertext.length < 16 :=
  ⟨rfl, by simp⟩

/-- C6: after a successful store of thirty-two bytes, current returns
exactly those bytes; a store of any other length fails with InvalidLength
carrying that length, leaves the state unchanged, and current afterwards
returns what it returned before. -/
theorem dek_store_spec (st : DekStoreState) (b : List Nat) :
    (b.length = 32 →
      DekStore.store st b = (.ok (), some b) ∧
      DekStore.current (DekStore.store st b).2 = .ok b) ∧
    (b.length ≠ 32 →
      DekStore.store st b = (.error (.invalidLength b.length), st) ∧
      DekStore.current (DekStore.store st b).2 = DekStore.current st) := by
  refine ⟨fun h => ?_, fun h => ?_⟩
  · simp [DekStore.store, DekStore.current, h]
  · simp [DekStore.store, h]

/-- Witness for C6 at concrete states: a fresh store accepting a
thirty-two-byte key, and a populated store rejecting a one-byte key. -/
theorem dek_store_spec_witness :
    (DekStore.store none (List.replicate 32 7) = (.ok (), some (List.replicate 32 7)) ∧
      DekStore.current (DekStore.store none (List.replicate 32 7)).2 =
        .ok (List.replicate 32 7)) ∧
    (DekStore.store (some (List.replicate 32 9)) [1] =
        (.error (.invalidLength 1), some (List.replicate 32 9)) ∧
      DekStore.current (DekStore.store (some (List.replicate 32 9)) [1]).2 =
        DekStore.current (some (List.replicate 32 9))) :=
  ⟨(dek_store_spec none (List.replicate 32 7)).1 (by simp),
   (dek_store_spec (some (List.replicate 32 9)) [1]).2 (by simp)⟩

/-- C8: the health endpoint answers 200 with status ok, dek_ready true and
the schema count exactly when a DEK is stored and the cached schema count
is positive; otherwise it answers 503 with status degraded and the actual
readiness values. -/
theorem health_spec (st : DekStoreState) (n : Nat) :
    (health st n = (200, ⟨"ok", true, n⟩) ↔ st.isSome = true ∧ 0 < n) ∧
    (¬(st.isSome = true ∧ 0 < n) →
      health st n = (503, ⟨"degraded", st.isSome, n⟩)) := by
  by_cases h : st.isSome = true ∧ 0 < n
  · refine ⟨?_, fun hc => absurd h hc⟩
    simp [health, DekStore.is_ready, h, h.1]
  · refine ⟨?_, fun _ => ?_⟩ <;> simp [health, DekStore.is_ready, h]

/-- Witness for C8: a ready store with one schema answers 200 ok, and an
empty store with no schemas answers 503 degraded. -/
theorem health_spec_witness :
    health (some (List.replicate 32 7)) 1 = (200, ⟨"ok", true, 1⟩) ∧
    health none 0 = (503, ⟨"degraded", false, 0⟩) :=
  ⟨(health_spec (some (List.replicate 32 7)) 1).1.mpr ⟨rfl, Nat.zero_lt_one⟩,
   (health_spec none 0).2 (by simp)⟩

/-- C9: the encrypt handler's error ladder. A missing schema header gives
400 bad_request naming the missing header; a header with a byte outside
visible ASCII gives 400 bad_request; a decodable header naming a schema
absent from the cache gives 400 bad_request with message unknown schema
followed by the name; and only once the schema is resolved, an empty DEK
store gives 503 service_unavailable with message DEK not yet initialised
(in particular the unknown-schema answer wins even when the DEK is also
missing, since its conjunct does not constrain the store). -/
theorem encrypt_handler_error_spec (hname : String) (header : Option (List Nat))
    (cache : List (String × List String)) (dekState : DekStoreState)
    (ns : Nat → List Nat) (payload : Json) :
    (header = none →
      encrypt_handler hname header cache dekState ns payload =
        .errorResp 400 "bad_request" ("missing " ++ hname ++ " header")) ∧
    (∀ bs, header = some bs → bs.all visibleAscii = false →
      encrypt_handler hname header cache dekState ns payload =
        .errorResp 400 "bad_request" (hname ++ " header contains non-ASCII characters")) ∧
    (∀ bs, header = some bs → bs.all visibleAscii = true →
      lookupSchema (String.mk (bs.map Char.ofNat)) cache = none →
      encrypt_handler hname header cache dekState ns payload =
        .errorResp 400 "bad_request" ("unknown schema: " ++ String.mk (bs.map Char.ofNat))) ∧
    (∀ bs paths, header = some bs → bs.all visibleAscii = true →
      lookupSchema (String.mk (bs.map Char.ofNat)) cache = some paths →
      dekState = none →
      encrypt_handler hname header cache dekState ns payload =
        .errorResp 503 "service_unavailable" "DEK not yet initialised") := by
  refine ⟨fun h => ?_, fun bs h hv => ?_, fun bs h hv hl => ?_,
    fun bs paths h hv hl hd => ?_⟩
  · subst h; rfl
  · subst h; simp [encrypt_handler, headerToStr, hv]
  · subst h; simp [encrypt_handler, headerToStr, hv, hl]
  · subst h; subst hd; simp [encrypt_handler, headerToStr, hv, hl, DekStore.current]

/-- Witness for C9 at concrete requests exercising all four error arms,
including an unknown schema with the DEK simultaneously missing. -/
theorem encrypt_handler_error_spec_witness :
    (encrypt_handler "X-Schema-Name" none [] none (fun _ => []) .null =
      .errorResp 400 "bad_request" "missing X-Schema-Name header") ∧
    (encrypt_handler "X-Schema-Name" (some [200]) [] none (fun _ => []) .null =
      .errorResp 400 "bad_request" "X-Schema-Name header contains non-ASCII characters") ∧
    (encrypt_handler "X-Schema-Name" (some [97, 98, 99]) [] none (fun _ => []) .null =
      .errorResp 400 "bad_request" "unknown schema: abc") ∧
    (encrypt_handler "X-Schema-Name" (some [97, 98, 99]) [("abc", [])] none (fun _ => []) .null =
      .errorResp 503 "service_unavailable" "DEK not yet initialised") := by
  refine ⟨?_, ?_, ?_, ?_⟩
  · exact (encrypt_handler_error_spec "X-Schema-Name" none [] none (fun _ => []) .null).1 rfl
  · exact (encrypt_handler_error_spec "X-Schema-Name" (some [200]) [] none
      (fun _ => []) .null).2.1 [200] rfl (by decide)
  · have h := (encrypt_handler_error_spec "X-Schema-Name" (some [97, 98, 99]) [] none
      (fun _ => []) .null).2.2.1 [97, 98, 99] rfl (by decide) rfl
    simpa using h
  · have h := (encrypt_handler_error_spec "X-Schema-Name" (some [97, 98, 99]) [("abc", [])]
      none (fun _ => []) .null).2.2.2 [97, 98, 99] [] rfl (by decide) (by rfl) rfl
    simpa using h

/-! ### C2: the resolver on a cyclic reference graph -/

/-- A component schema that references itself through a property: an
object whose property self is a reference back to component A. -/
def cyclicSchemaA : RRefOr :=
  .objSchema false [("self", .refTo "#/components/schemas/A")]

/-- A document whose components map binds A to the self-referencing
schema: the smallest cyclic reference graph. -/
def cyclicApi : RApi := ⟨some [("A", cyclicSchemaA)]⟩

/-- Resolving the self-reference finds the inline schema for A. -/
theorem resolve_ref_cyclicApi :
    resolve_ref cyclicApi "#/components/schemas/A" = some cyclicSchemaA := rfl

/-- The walk of the cyclic schema exhausts every recursion depth. -/
theorem walk_schema_fuel_cyclic (n : Nat) :
    ∀ pre, walk_schema_fuel cyclicApi n cyclicSchemaA pre = none := by
  induction n with
  | zero => intro pre; simp [walk_schema_fuel]
  | succ n ih =>
    intro pre
    show walk_schema_fuel cyclicApi (n + 1) cyclicSchemaA pre = none
    rw [show cyclicSchemaA = .objSchema false [("self", .refTo "#/components/schemas/A")] from rfl]
    simp only [walk_schema_fuel, walkProps, resolveNode, resolve_ref_cyclicApi]
    simp [ih]

/-- C2: the claim that resolve_pii_paths terminates on every document
fails on the code: on the cyclic document above, the walk exceeds every
recursion depth n, so the Rust recursion, which carries no fuel and no
seen-set, never returns. -/
theorem resolve_pii_paths_cyclic_never_terminates (n : Nat) :
    resolve_pii_paths_fuel cyclicApi n = none := by
  show walkTop cyclicApi n [("A", cyclicSchemaA)] = none
  rw [show cyclicSchemaA = .objSchema false [("self", .refTo "#/components/schemas/A")] from rfl]
  simp only [walkTop]
  rw [← show cyclicSchemaA = .objSchema false [("self", .refTo "#/components/schemas/A")] from rfl]
  rw [walk_schema_fuel_cyclic n ""]

/-! ### C1: the standalone bracket path on a top-level array -/

/-- C1: the claim fails on the code. The standalone bracket path parses to
a key segment for the empty name followed by an array-item segment, so on
a payload that is a top-level JSON array the traversal hits the key
segment, finds the node is not an object, and stops silently: the string
element is returned unchanged rather than replaced by an encrypted token
(its text is the one-character string a, not a token with the v1 prefix),
for every key and every nonce source. -/
theorem standalone_brackets_top_level_array_unchanged
    (dek : List Nat) (ns : Nat → List Nat) :
    parse_path "[]" = [PathSegment.key "", PathSegment.arrayItem] ∧
    encrypt_pii_fields dek ns ["[]"] (.arr [.str "a"]) 0 =
      .ok (.arr [.str "a"], 0) := by
  refine ⟨rfl, ?_⟩
  simp [encrypt_pii_fields, encrypt_at_path, show parse_path "[]" =
    [PathSegment.key "", PathSegment.arrayItem] from rfl]

/-! ### C5: what from_str rejects -/

/-- A successfully parsed token pins down every stage of from_str: three
pieces, the version piece, a decodable twelve-byte nonce piece and a
decodable ciphertext piece. -/
theorem from_str_ok_characterisation (s : String) (f : EncryptedField)
    (h : EncryptedField.from_str s = .ok f) :
    (splitn 3 '.' s.data).length = 3 ∧
    (splitn 3 '.' s.data).getD 0 [] = ['v', '1'] ∧
    b64decode ((splitn 3 '.' s.data).getD 1 []) = some f.nonce ∧
    f.nonce.length = 12 ∧
    b64decode ((splitn 3 '.' s.data).getD 2 []) = some f.ciphertext := by
  simp only [EncryptedField.from_str] at h
  split at h
  next h3 => simp at h
  next h3 =>
    split at h
    next hv => simp at h
    next hv =>
      split at h
      next hnbEq => simp at h
      next nb hnbEq =>
        split at h
        next hlen => simp at h
        next hlen =>
          split at h
          next hctEq => simp at h
          next ct hctEq =>
            cases h
            exact ⟨by omega, by simpa using hv, hnbEq, by simp; omega, hctEq⟩

/-- from_str either fails with InvalidFormat or succeeds: InvalidFormat is
its only error. -/
theorem from_str_total (s : String) :
    EncryptedField.from_str s = .error .invalidFormat ∨
    ∃ f, EncryptedField.from_str s = .ok f := by
  simp only [EncryptedField.from_str]
  split
  · exact Or.inl rfl
  · split
    · exact Or.inl rfl
    · split
      · exact Or.inl rfl
      · split
        · exact Or.inl rfl
        · split
          · exact Or.inl rfl
          · exact Or.inr ⟨_, rfl⟩

/-- C5: from_str fails with InvalidFormat whenever the input has fewer
than three dot-separated pieces, or its first piece is not exactly the
version tag, or either base64url piece is malformed, or the decoded nonce
is not twelve bytes. -/
theorem from_str_rejects (s : String)
    (h : (splitn 3 '.' s.data).length < 3 ∨
      (splitn 3 '.' s.data).getD 0 [] ≠ ['v', '1'] ∨
      b64decode ((splitn 3 '.' s.data).getD 1 []) = none ∨
      (∃ nb, b64decode ((splitn 3 '.' s.data).getD 1 []) = some nb ∧ nb.length ≠ 12) ∨
      b64decode ((splitn 3 '.' s.data).getD 2 []) = none) :
    EncryptedField.from_str s = .error .invalidFormat := by
  rcases from_str_total s with hT | ⟨f, hT⟩
  · exact hT
  · obtain ⟨h3, hv, hnb, hlen, hct⟩ := from_str_ok_characterisation s f hT
    rcases h with h | h | h | ⟨nb, hnb', hlen'⟩ | h
    · omega
    · exact absurd hv h
    · rw [hnb] at h; cases h
    · rw [hnb] at hnb'; cases hnb'; omega
    · rw [hct] at h; cases h

/-- Witness for C5: the concrete input with only two pieces is rejected
with InvalidFormat. -/
theorem from_str_rejects_witness :
    (splitn 3 '.' "v1.abc".data).length < 3 ∧
    EncryptedField.from_str "v1.abc" = .error .invalidFormat :=
  ⟨by decide, from_str_rejects "v1.abc" (Or.inl (by decide))⟩

/-! ### C4: the token text round trip -/

/-- Sextet-to-character-to-sextet round trip on the alphabet. -/
theorem charSextet_sextetChar : ∀ s, s < 64 → charSextet (sextetChar s) = some s := by
  decide

/-- No alphabet character, and no out-of-range default, is the dot. -/
theorem sextetChar_ne_dot (s : Nat) : sextetChar s ≠ '.' := by
  by_cases h : s < 64
  · revert h; revert s; decide
  · have hlen : b64Alphabet.length ≤ s := by simp [b64Alphabet]; omega
    simp [sextetChar, List.getD, List.getElem?_eq_none hlen]

/-- Encoded byte strings never contain the dot separator. -/
theorem b64encode_ne_dot (bs : List Nat) : ∀ c ∈ b64encode bs, c ≠ '.' := by
  induction bs using b64encode.induct with
  | case1 => simp [b64encode]
  | case2 b0 =>
    simp only [b64encode, List.mem_cons, List.mem_singleton]
    rintro c (rfl | rfl | h) <;> first | exact sextetChar_ne_dot _ | simp_all
  | case3 b0 b1 =>
    simp only [b64encode, List.mem_cons, List.mem_singleton]
    rintro c (rfl | rfl | rfl | h) <;> first | exact sextetChar_ne_dot _ | simp_all
  | case4 b0 b1 b2 rest ih =>
    simp only [b64encode, List.mem_cons]
    rintro c (rfl | rfl | rfl | rfl | h)
    · exact sextetChar_ne_dot _
    · exact sextetChar_ne_dot _
    · exact sextetChar_ne_dot _
    · exact sextetChar_ne_dot _
    · exact ih c h

/-- Base64url-no-pad decoding inverts encoding on byte strings. -/
theorem b64decode_b64encode (bs : List Nat) (hb : ∀ b ∈ bs, b < 256) :
    b64decode (b64encode bs) = some bs := by
  induction bs using b64encode.induct with
  | case1 => rfl
  | case2 b0 =>
    have h0 : b0 < 256 := hb b0 (by simp)
    simp only [b64encode, b64decode,
      charSextet_sextetChar _ (by omega : b0 / 4 < 64),
      charSextet_sextetChar _ (by omega : b0 % 4 * 16 < 64)]
    rw [if_pos (by omega)]
    congr 2
    omega
  | case3 b0 b1 =>
    have h0 : b0 < 256 := hb b0 (by simp)
    have h1 : b1 < 256 := hb b1 (by simp)
    simp only [b64encode, b64decode,
      charSextet_sextetChar _ (by omega : b0 / 4 < 64),
      charSextet_sextetChar _ (by omega : b0 % 4 * 16 + b1 / 16 < 64),
      charSextet_sextetChar _ (by omega : b1 % 16 * 4 < 64)]
    rw [if_pos (by omega)]
    congr 1
    have e0 : b0 / 4 * 4 + (b0 % 4 * 16 + b1 / 16) / 16 = b0 := by omega
    have e1 : (b0 % 4 * 16 + b1 / 16) % 16 * 16 + b1 % 16 * 4 / 4 = b1 := by omega
    rw [e0, e1]
  | case4 b0 b1 b2 rest ih =>
    have h0 : b0 < 256 := hb b0 (by simp)
    have h1 : b1 < 256 := hb b1 (by simp)
    have h2 : b2 < 256 := hb b2 (by simp)
    have hrest : ∀ b ∈ rest, b < 256 := fun b hm => hb b (by simp [hm])
    have hd := ih hrest
    cases henc : b64encode rest with
    | nil =>
      rw [henc] at hd
      simp only [b64encode, henc, b64decode,
        charSextet_sextetChar _ (by omega : b0 / 4 < 64),
        charSextet_sextetChar _ (by omega : b0 % 4 * 16 + b1 / 16 < 64),
        charSextet_sextetChar _ (by omega : b1 % 16 * 4 + b2 / 64 < 64),
        charSextet_sextetChar _ (by omega : b2 % 64 < 64)]
      simp only [b64decode] at hd
      cases hd
      congr 1
      have e0 : b0 / 4 * 4 + (b0 % 4 * 16 + b1 / 16) / 16 = b0 := by omega
      have e1 : (b0 % 4 * 16 + b1 / 16) % 16 * 16 + (b1 % 16 * 4 + b2 / 64) / 4 = b1 := by omega
      have e2 : (b1 % 16 * 4 + b2 / 64) % 4 * 64 + b2 % 64 = b2 := by omega
      rw [e0, e1, e2]
      rfl
    | cons c0 cs =>
      rw [henc] at hd
      simp only [b64encode, henc, b64decode,
        charSextet_sextetChar _ (by omega : b0 / 4 < 64),
        charSextet_sextetChar _ (by omega : b0 % 4 * 16 + b1 / 16 < 64),
        charSextet_sextetChar _ (by omega : b1 % 16 * 4 + b2 / 64 < 64),
        charSextet_sextetChar _ (by omega : b2 % 64 < 64), hd]
      have e0 : b0 / 4 * 4 + (b0 % 4 * 16 + b1 / 16) / 16 = b0 := by omega
      have e1 : (b0 % 4 * 16 + b1 / 16) % 16 * 16 + (b1 % 16 * 4 + b2 / 64) / 4 = b1 := by omega
      have e2 : (b1 % 16 * 4 + b2 / 64) % 4 * 64 + b2 % 64 = b2 := by omega
      rw [e0, e1, e2]
      rfl

/-- spanUntil on a separator-free piece followed by a separator. -/
theorem spanUntil_no_sep (c : Char) (xs ys : List Char) (h : ∀ a ∈ xs, a ≠ c) :
    splitn.spanUntil c (xs ++ c :: ys) = (xs, some ys) := by
  induction xs with
  | nil => simp [splitn.spanUntil]
  | cons x xs ih =>
    have hx : x ≠ c := h x (by simp)
    have ih' := ih (fun a ha => h a (by simp [ha]))
    simp [splitn.spanUntil, hx, ih']

/-- splitn at three pieces, unfolded one level. -/
theorem splitn3_eq (c : Char) (s : List Char) :
    splitn 3 c s = match splitn.spanUntil c s with
      | (pre, none) => [pre]
      | (pre, some rest) => pre :: splitn 2 c rest := rfl

/-- splitn at two pieces, unfolded fully. -/
theorem splitn2_eq (c : Char) (s : List Char) :
    splitn 2 c s = match splitn.spanUntil c s with
      | (pre, none) => [pre]
      | (pre, some rest) => [pre, rest] := rfl

/-- Splitting a well-formed token's text recovers its three pieces. -/
theorem splitn3_token (e1 e2 : List Char) (h1 : ∀ c ∈ e1, c ≠ '.') :
    splitn 3 '.' (['v', '1', '.'] ++ e1 ++ ['.'] ++ e2) = [['v', '1'], e1, e2] := by
  have hs : ['v', '1', '.'] ++ e1 ++ ['.'] ++ e2 =
      ['v', '1'] ++ '.' :: (e1 ++ '.' :: e2) := by simp
  have hspan1 := spanUntil_no_sep '.' ['v', '1'] (e1 ++ '.' :: e2) (by decide)
  have hspan2 := spanUntil_no_sep '.' e1 e2 h1
  rw [hs, splitn3_eq, hspan1]
  dsimp only
  rw [splitn2_eq, hspan2]

/-- C4: the token text round trip. For every well-formed token, a
twelve-byte nonce paired with arbitrary ciphertext bytes, from_str applied
to to_string_repr succeeds and returns a token equal to the original, and
the rendering starts with the version tag followed by a dot. -/
theorem from_str_to_string_repr (nonce ct : List Nat)
    (hn : nonce.length = 12)
    (hbn : ∀ b ∈ nonce, b < 256) (hbc : ∀ b ∈ ct, b < 256) :
    EncryptedField.from_str (EncryptedField.to_string_repr ⟨nonce, ct⟩) =
      .ok ⟨nonce, ct⟩ ∧
    (EncryptedField.to_string_repr ⟨nonce, ct⟩).data.take 3 = ['v', '1', '.'] := by
  have hdata : (EncryptedField.to_string_repr ⟨nonce, ct⟩).data =
      ['v', '1', '.'] ++ b64encode nonce ++ ['.'] ++ b64encode ct := by
    simp [EncryptedField.to_string_repr]
  constructor
  · have hparts : splitn 3 '.' (EncryptedField.to_string_repr ⟨nonce, ct⟩).data =
        [['v', '1'], b64encode nonce, b64encode ct] := by
      rw [hdata]
      exact splitn3_token _ _ (b64encode_ne_dot nonce)
    simp only [EncryptedField.from_str, hparts]
    rw [if_neg (by simp)]
    rw [if_neg (by simp)]
    rw [show ([['v', '1'], b64encode nonce, b64encode ct].getD 1 []) = b64encode nonce from rfl]
    rw [b64decode_b64encode nonce hbn]
    dsimp only
    rw [if_neg (by omega)]
    rw [show ([['v', '1'], b64encode nonce, b64encode ct].getD 2 []) = b64encode ct from rfl]
    rw [b64decode_b64encode ct hbc]
  · rw [hdata]; rfl

/-- Witness for C4 at a concrete token with a twelve-byte nonce and a
three-byte ciphertext. -/
theorem from_str_to_string_repr_witness :
    (List.replicate 12 0).length = 12 ∧
    EncryptedField.from_str
        (EncryptedField.to_string_repr ⟨List.replicate 12 0, [1, 2, 255]⟩) =
      .ok ⟨List.replicate 12 0, [1, 2, 255]⟩ ∧
    (EncryptedField.to_string_repr ⟨List.replicate 12 0, [1, 2, 255]⟩).data.take 3 =
      ['v', '1', '.'] := by
  have h := from_str_to_string_repr (List.replicate 12 0) [1, 2, 255]
    (by simp) (by decide) (by decide)
  exact ⟨by simp, h.1, h.2⟩

/-! ### C3: the field encryption round trip -/

/-- An AES block is always sixteen bytes: the final AddRoundKey builds an
explicit sixteen-entry list. -/
theorem aesBlock_length (key block : List Nat) : (aesBlock key block).length = 16 := rfl

/-- The flattened map of a block function whose every output has sixteen
bytes has sixteen bytes per index. -/
theorem flatten_blocks_length (f : Nat → List Nat) (n : Nat)
    (h : ∀ i, (f i).length = 16) :
    (((List.range n).map f).flatten).length = 16 * n := by
  induction n with
  | zero => simp
  | succ n ih =>
    rw [List.range_succ]
    simp only [List.map_append, List.map_cons, List.map_nil, List.flatten_append,
      List.length_append, ih]
    simp [h n]
    omega

/-- The keystream has exactly the requested length. -/
theorem keystream_length (encKey cb : List Nat) (len : Nat) :
    (keystream encKey cb len).length = len := by
  unfold keystream
  rw [List.length_take, flatten_blocks_length _ _ (fun i => aesBlock_length _ _)]
  omega

/-- Xoring twice with the same pad recovers the input. -/
theorem zipWith_xor_cancel (xs ys : List Nat) (h : xs.length ≤ ys.length) :
    List.zipWith Nat.xor (List.zipWith Nat.xor xs ys) ys = xs := by
  induction xs generalizing ys with
  | nil => simp
  | cons x xs ih =>
    cases ys with
    | nil => simp at h
    | cons y ys =>
      simp only [List.length_cons, Nat.add_le_add_iff_right] at h
      simp only [List.zipWith, ih ys h]
      have hx : Nat.xor (Nat.xor x y) y = x := by
        show (x ^^^ y) ^^^ y = x
        rw [Nat.xor_assoc, Nat.xor_self, Nat.xor_zero]
      rw [hx]

/-- The SIV tag is sixteen bytes. -/
theorem sivTag_length (key nonce p : List Nat) : (sivTag key nonce p).length = 16 :=
  aesBlock_length _ _

/-- C3: for every thirty-two-byte key, every plaintext byte string and
every twelve-byte nonce the encryption draws, encrypt_field succeeds and
decrypt_field of its output under the same key succeeds and returns
exactly the plaintext. -/
theorem decrypt_field_encrypt_field (p dek nonce : List Nat)
    (hk : dek.length = 32) (hn : nonce.length = 12) :
    ∃ f, encrypt_field p dek nonce = .ok f ∧ decrypt_field f dek = .ok p := by
  refine ⟨⟨nonce, sivEncrypt dek nonce p⟩, by simp [encrypt_field, hk], ?_⟩
  simp only [decrypt_field, if_pos hk]
  show sivDecrypt dek nonce (sivEncrypt dek nonce p) = .ok p
  have hks : (keystream (deriveEncKey dek nonce)
      (counterBlock (sivTag dek nonce p)) p.length).length = p.length :=
    keystream_length _ _ _
  have henc : sivEncrypt dek nonce p =
      List.zipWith Nat.xor p (keystream (deriveEncKey dek nonce)
        (counterBlock (sivTag dek nonce p)) p.length) ++ sivTag dek nonce p := rfl
  rw [henc]
  set KS := keystream (deriveEncKey dek nonce)
    (counterBlock (sivTag dek nonce p)) p.length with hKS
  set TAG := sivTag dek nonce p with hTAG
  set body := List.zipWith Nat.xor p KS with hbodydef
  have hbody : body.length = p.length := by
    rw [hbodydef, List.length_zipWith, hks]
    omega
  have htag16 : TAG.length = 16 := sivTag_length _ _ _
  have hct : (body ++ TAG).length = p.length + 16 := by
    rw [List.length_append, hbody, htag16]
  have hsub : (body ++ TAG).length - 16 = body.length := by omega
  have hdrop : (body ++ TAG).drop ((body ++ TAG).length - 16) = TAG := by
    rw [hsub]; exact List.drop_left body TAG
  have htake : (body ++ TAG).take ((body ++ TAG).length - 16) = body := by
    rw [hsub]; exact List.take_left body TAG
  simp only [sivDecrypt]
  rw [if_neg (by omega)]
  rw [htake, hdrop, hbody, hbodydef]
  rw [zipWith_xor_cancel p KS (by omega)]
  rw [if_pos rfl]

/-- Witness for C3 at a concrete key, plaintext and nonce. -/
theorem decrypt_field_encrypt_field_witness :
    (List.replicate 32 7).length = 32 ∧ (List.replicate 12 3).length = 12 ∧
    ∃ f, encrypt_field [1, 2, 3] (List.replicate 32 7) (List.replicate 12 3) = .ok f ∧
      decrypt_field f (List.replicate 32 7) = .ok [1, 2, 3] :=
  ⟨by simp, by simp,
    decrypt_field_encrypt_field [1, 2, 3] (List.replicate 32 7) (List.replicate 12 3)
      (by simp) (by simp)⟩

/-! ### C7: the traversal modifies nothing outside the matched leaves

The frame property is stated through three decidable notions on the
embedded JSON: isStr recognises string leaves; hasMatch says whether a
segment list actually reaches a string leaf somewhere below a value;
encTouches says whether a concrete pointer is on the spine of, at, or
below some string leaf the segment list reaches, which is exactly the
region of the document the traversal may rewrite. -/

/-- Is the value a string leaf. -/
def isStr : Json → Bool
  | .str _ => true
  | _ => false

/-- Does the segment list reach at least one string leaf in the value. -/
def hasMatch : List PathSegment → Json → Bool
  | [], v => isStr v
  | .key k :: rest, .obj fs =>
    (match lookupField k fs with
     | some c => hasMatch rest c
     | none => false)
  | .key _ :: _, _ => false
  | .arrayItem :: rest, .arr xs => xs.any fun x => hasMatch rest x
  | .arrayItem :: _, _ => false
termination_by segs _ => segs.length

/-- Is the pointer comparable (ancestor, equal, or descendant) with some
string leaf the segment list reaches in the value. -/
def encTouches : List PathSegment → Json → List Step → Bool
  | segs, v, [] => hasMatch segs v
  | [], v, _ :: _ => isStr v
  | .key k :: rest, .obj fs, .field n :: p =>
    (n == k) && (match lookupField k fs with
                 | some c => encTouches rest c p
                 | none => false)
  | .arrayItem :: rest, .arr xs, .idx i :: p =>
    (match xs.get? i with
     | some c => encTouches rest c p
     | none => false)
  | _, _, _ :: _ => false
termination_by segs _ _ => segs.length

mutual

/-- Same tree shape: equal except possibly in the contents of string
leaves. The traversal only ever rewrites string leaves to string leaves,
so input and output payloads are related by this relation. -/
def sameShape : Json → Json → Bool
  | .null, .null => true
  | .bool a, .bool b => a == b
  | .num a, .num b => a == b
  | .str _, .str _ => true
  | .arr xs, .arr ys => sameShapeList xs ys
  | .obj fs, .obj gs => sameShapeFields fs gs
  | _, _ => false

def sameShapeList : List Json → List Json → Bool
  | [], [] => true
  | x :: xs, y :: ys => sameShape x y && sameShapeList xs ys
  | _, _ => false

def sameShapeFields : List (String × Json) → List (String × Json) → Bool
  | [], [] => true
  | (n, x) :: fs, (m, y) :: gs => (n == m) && sameShape x y && sameShapeFields fs gs
  | _, _ => false

end

mutual

/-- Shape equality is reflexive. -/
theorem sameShape_refl : ∀ v : Json, sameShape v v = true
  | .null => rfl
  | .bool b => by simp [sameShape]
  | .num n => by simp [sameShape]
  | .str s => by simp [sameShape]
  | .arr xs => by simp only [sameShape]; exact sameShapeList_refl xs
  | .obj fs => by simp only [sameShape]; exact sameShapeFields_refl fs

theorem sameShapeList_refl : ∀ xs : List Json, sameShapeList xs xs = true
  | [] => rfl
  | x :: xs => by
    simp only [sameShapeList, Bool.and_eq_true]
    exact ⟨sameShape_refl x, sameShapeList_refl xs⟩

theorem sameShapeFields_refl : ∀ fs : List (String × Json), sameShapeFields fs fs = true
  | [] => rfl
  | (n, x) :: fs => by
    simp only [sameShapeFields, Bool.and_eq_true, beq_iff_eq]
    exact ⟨⟨trivial, sameShape_refl x⟩, sameShapeFields_refl fs⟩

end

/-- Shape-equal objects agree on which names are bound, with shape-equal
values. -/
theorem sameShapeFields_lookup (k : String) :
    ∀ fs gs : List (String × Json), sameShapeFields fs gs = true →
    (lookupField k fs = none ∧ lookupField k gs = none) ∨
    (∃ c c', lookupField k fs = some c ∧ lookupField k gs = some c' ∧
      sameShape c c' = true) := by
  intro fs
  induction fs with
  | nil =>
    intro gs h
    cases gs with
    | nil => exact Or.inl ⟨rfl, rfl⟩
    | cons g gs => simp [sameShapeFields] at h
  | cons f fs ih =>
    intro gs h
    obtain ⟨n, x⟩ := f
    cases gs with
    | nil => simp [sameShapeFields] at h
    | cons g gs =>
      obtain ⟨m, y⟩ := g
      simp only [sameShapeFields, Bool.and_eq_true, beq_iff_eq] at h
      obtain ⟨⟨hnm, hxy⟩, hrest⟩ := h
      subst hnm
      by_cases hk : n = k
      · exact Or.inr ⟨x, y, by simp [lookupField, hk], by simp [lookupField, hk], hxy⟩
      · simpa [lookupField, hk] using ih gs hrest

/-- Shape-equal arrays agree on which indices are present, with shape-equal
elements. -/
theorem sameShapeList_get :
    ∀ (xs ys : List Json), sameShapeList xs ys = true → ∀ i : Nat,
    (xs.get? i = none ∧ ys.get? i = none) ∨
    (∃ c c', xs.get? i = some c ∧ ys.get? i = some c' ∧ sameShape c c' = true) := by
  intro xs
  induction xs with
  | nil =>
    intro ys h i
    cases ys with
    | nil => exact Or.inl ⟨rfl, rfl⟩
    | cons y ys => simp [sameShapeList] at h
  | cons x xs ih =>
    intro ys h i
    cases ys with
    | nil => simp [sameShapeList] at h
    | cons y ys =>
      simp only [sameShapeList, Bool.and_eq_true] at h
      cases i with
      | zero => exact Or.inr ⟨x, y, rfl, rfl, h.1⟩
      | succ i => simpa using ih ys h.2 i

/-- Shape-equal values agree on being a string leaf. -/
theorem isStr_sameShape : ∀ {v w : Json}, sameShape v w = true → isStr v = isStr w := by
  intro v w h
  cases v <;> cases w <;> first | rfl | simp [sameShape] at h

/-- Inversion: only null is shape-equal to null. -/
theorem sameShape_null_inv : ∀ {w : Json}, sameShape .null w = true → w = .null := by
  intro w h
  cases w <;> first | rfl | simp [sameShape] at h

/-- Inversion: only the same boolean is shape-equal to a boolean. -/
theorem sameShape_bool_inv : ∀ {b : Bool} {w : Json},
    sameShape (.bool b) w = true → w = .bool b := by
  intro b w h
  cases w <;> simp [sameShape] at h <;> simp [h]

/-- Inversion: only the same number is shape-equal to a number. -/
theorem sameShape_num_inv : ∀ {n : Int} {w : Json},
    sameShape (.num n) w = true → w = .num n := by
  intro n w h
  cases w <;> simp [sameShape] at h <;> simp [h]

/-- Inversion: only a string is shape-equal to a string. -/
theorem sameShape_str_inv : ∀ {s : String} {w : Json},
    sameShape (.str s) w = true → ∃ t, w = .str t := by
  intro s w h
  cases w <;> first | exact ⟨_, rfl⟩ | simp [sameShape] at h

/-- Inversion: only an array of shape-equal elements is shape-equal to an
array. -/
theorem sameShape_arr_inv : ∀ {xs : List Json} {w : Json},
    sameShape (.arr xs) w = true → ∃ ys, w = .arr ys ∧ sameShapeList xs ys = true := by
  intro xs w h
  cases w <;> first | exact ⟨_, rfl, by simpa [sameShape] using h⟩ | simp [sameShape] at h

/-- Inversion: only an object of shape-equal bindings is shape-equal to an
object. -/
theorem sameShape_obj_inv : ∀ {fs : List (String × Json)} {w : Json},
    sameShape (.obj fs) w = true → ∃ gs, w = .obj gs ∧ sameShapeFields fs gs = true := by
  intro fs w h
  cases w <;> first | exact ⟨_, rfl, by simpa [sameShape] using h⟩ | simp [sameShape] at h

/-- Shape-equal values have string leaves in the same places along any
segment list. -/
theorem hasMatch_sameShape : ∀ (segs : List PathSegment) (v w : Json),
    sameShape v w = true → hasMatch segs v = hasMatch segs w := by
  intro segs
  induction segs with
  | nil =>
    intro v w h
    simp only [hasMatch]
    exact isStr_sameShape h
  | cons seg rest ih =>
    intro v w h
    cases seg with
    | key k =>
      cases v with
      | obj fs =>
        obtain ⟨gs, rfl, hfs⟩ := sameShape_obj_inv h
        simp only [hasMatch]
        rcases sameShapeFields_lookup k fs gs hfs with ⟨h1, h2⟩ | ⟨c, c', h1, h2, hcc⟩
        · rw [h1, h2]
        · rw [h1, h2]; exact ih c c' hcc
      | null => rw [sameShape_null_inv h]
      | bool b => rw [sameShape_bool_inv h]
      | num n => rw [sameShape_num_inv h]
      | str s => obtain ⟨t, rfl⟩ := sameShape_str_inv h; simp [hasMatch]
      | arr xs =>
        obtain ⟨ys, rfl, _⟩ := sameShape_arr_inv h
        simp [hasMatch]
    | arrayItem =>
      cases v with
      | arr xs =>
        obtain ⟨ys, rfl, hxs⟩ := sameShape_arr_inv h
        simp only [hasMatch]
        clear h
        induction xs generalizing ys with
        | nil => cases ys with
          | nil => rfl
          | cons y ys => simp [sameShapeList] at hxs
        | cons x xs ihl =>
          cases ys with
          | nil => simp [sameShapeList] at hxs
          | cons y ys =>
            simp only [sameShapeList, Bool.and_eq_true] at hxs
            simp only [List.any_cons]
            rw [ih x y hxs.1, ihl ys hxs.2]
      | null => rw [sameShape_null_inv h]
      | bool b => rw [sameShape_bool_inv h]
      | num n => rw [sameShape_num_inv h]
      | str s => obtain ⟨t, rfl⟩ := sameShape_str_inv h; simp [hasMatch]
      | obj fs =>
        obtain ⟨gs, rfl, _⟩ := sameShape_obj_inv h
        simp [hasMatch]

/-- A key segment can only touch through an object field step. -/
theorem encTouches_key_idx (k : String) (rest : List PathSegment) (i : Nat)
    (p : List Step) (v : Json) :
    encTouches (.key k :: rest) v (.idx i :: p) = false := by
  cases v <;> simp [encTouches]

/-- An array-item segment can only touch through an index step. -/
theorem encTouches_arrayItem_field (rest : List PathSegment) (n : String)
    (p : List Step) (v : Json) :
    encTouches (.arrayItem :: rest) v (.field n :: p) = false := by
  cases v <;> simp [encTouches]

/-- Shape-equal values are touched at the same pointers by any segment
list. -/
theorem encTouches_sameShape : ∀ (p : List Step) (segs : List PathSegment) (v w : Json),
    sameShape v w = true → encTouches segs v p = encTouches segs w p := by
  intro p
  induction p with
  | nil =>
    intro segs v w h
    simp only [encTouches]
    exact hasMatch_sameShape segs v w h
  | cons st p ih =>
    intro segs v w h
    cases segs with
    | nil =>
      simp only [encTouches]
      exact isStr_sameShape h
    | cons seg rest =>
      cases seg with
      | key k =>
        cases st with
        | field n =>
          cases v with
          | obj fs =>
            obtain ⟨gs, rfl, hfs⟩ := sameShape_obj_inv h
            simp only [encTouches]
            rcases sameShapeFields_lookup k fs gs hfs with ⟨h1, h2⟩ | ⟨c, c', h1, h2, hcc⟩
            · rw [h1, h2]
            · rw [h1, h2]
              dsimp only
              rw [ih rest c c' hcc]
          | null => rw [sameShape_null_inv h]
          | bool b => rw [sameShape_bool_inv h]
          | num m => rw [sameShape_num_inv h]
          | str s =>
            obtain ⟨t, rfl⟩ := sameShape_str_inv h
            simp [encTouches]
          | arr xs =>
            obtain ⟨ys, rfl, _⟩ := sameShape_arr_inv h
            simp [encTouches]
        | idx i => rw [encTouches_key_idx, encTouches_key_idx]
      | arrayItem =>
        cases st with
        | idx i =>
          cases v with
          | arr xs =>
            obtain ⟨ys, rfl, hxs⟩ := sameShape_arr_inv h
            simp only [encTouches]
            rcases sameShapeList_get xs ys hxs i with ⟨h1, h2⟩ | ⟨c, c', h1, h2, hcc⟩
            · rw [h1, h2]
            · rw [h1, h2]
              dsimp only
              rw [ih rest c c' hcc]
          | null => rw [sameShape_null_inv h]
          | bool b => rw [sameShape_bool_inv h]
          | num m => rw [sameShape_num_inv h]
          | str s =>
            obtain ⟨t, rfl⟩ := sameShape_str_inv h
            simp [encTouches]
          | obj fs =>
            obtain ⟨gs, rfl, _⟩ := sameShape_obj_inv h
            simp [encTouches]
        | field n => rw [encTouches_arrayItem_field, encTouches_arrayItem_field]

/-- The object step preserves shape whenever the recursive traversal
does. -/
theorem encObjWith_sameShape (f : Json → Nat → Except CipherError (Json × Nat))
    (key : String)
    (hf : ∀ c k c' k', f c k = .ok (c', k') → sameShape c c' = true) :
    ∀ fs k fs' k', encObjWith f key fs k = .ok (fs', k') →
      sameShapeFields fs fs' = true := by
  intro fs
  induction fs with
  | nil =>
    intro k fs' k' h
    simp only [encObjWith] at h
    cases h
    rfl
  | cons entry tl ih =>
    intro k fs' k' h
    obtain ⟨name, child⟩ := entry
    simp only [encObjWith] at h
    by_cases hk : name = key
    · rw [if_pos hk] at h
      cases hfc : f child k with
      | error e => rw [hfc] at h; cases h
      | ok out =>
        obtain ⟨child', k₁⟩ := out
        rw [hfc] at h
        cases h
        simp only [sameShapeFields, Bool.and_eq_true, beq_iff_eq]
        exact ⟨⟨trivial, hf child k _ _ hfc⟩, sameShapeFields_refl tl⟩
    · rw [if_neg hk] at h
      cases hrec : encObjWith f key tl k with
      | error e => rw [hrec] at h; cases h
      | ok out =>
        obtain ⟨tl', k₁⟩ := out
        rw [hrec] at h
        cases h
        simp only [sameShapeFields, Bool.and_eq_true, beq_iff_eq]
        exact ⟨⟨trivial, sameShape_refl child⟩, ih k _ _ hrec⟩

/-- The array step preserves shape whenever the recursive traversal
does. -/
theorem encArrWith_sameShape (f : Json → Nat → Except CipherError (Json × Nat))
    (hf : ∀ c k c' k', f c k = .ok (c', k') → sameShape c c' = true) :
    ∀ xs k xs' k', encArrWith f xs k = .ok (xs', k') →
      sameShapeList xs xs' = true := by
  intro xs
  induction xs with
  | nil =>
    intro k xs' k' h
    simp only [encArrWith] at h
    cases h
    rfl
  | cons x tl ih =>
    intro k xs' k' h
    simp only [encArrWith] at h
    cases hfc : f x k with
    | error e => rw [hfc] at h; cases h
    | ok out =>
      obtain ⟨x', k₁⟩ := out
      rw [hfc] at h
      dsimp only at h
      cases hrec : encArrWith f tl k₁ with
      | error e => rw [hrec] at h; cases h
      | ok out2 =>
        obtain ⟨tl', k₂⟩ := out2
        rw [hrec] at h
        cases h
        simp only [sameShapeList, Bool.and_eq_true]
        exact ⟨hf x k _ _ hfc, ih k₁ _ _ hrec⟩

/-- The traversal only rewrites string leaves into string leaves: its
output has the same shape as its input. -/
theorem encrypt_at_path_sameShape (dek : List Nat) (ns : Nat → List Nat) :
    ∀ (segs : List PathSegment) (v : Json) (k : Nat) (v' : Json) (k' : Nat),
    encrypt_at_path dek ns segs v k = .ok (v', k') → sameShape v v' = true := by
  intro segs
  induction segs with
  | nil =>
    intro v k v' k' h
    cases v with
    | str s =>
      simp only [encrypt_at_path] at h
      cases henc : encrypt_field (strBytes s) dek (ns k) with
      | error e => rw [henc] at h; cases h
      | ok f => rw [henc] at h; cases h; rfl
    | null => simp only [encrypt_at_path] at h; cases h; exact sameShape_refl _
    | bool b => simp only [encrypt_at_path] at h; cases h; exact sameShape_refl _
    | num m => simp only [encrypt_at_path] at h; cases h; exact sameShape_refl _
    | arr xs => simp only [encrypt_at_path] at h; cases h; exact sameShape_refl _
    | obj fs => simp only [encrypt_at_path] at h; cases h; exact sameShape_refl _
  | cons seg rest ih =>
    intro v k v' k' h
    cases seg with
    | key key =>
      cases v with
      | obj fs =>
        simp only [encrypt_at_path] at h
        cases hrec : encObjWith (fun c k' => encrypt_at_path dek ns rest c k') key fs k with
        | error e => rw [hrec] at h; cases h
        | ok out =>
          obtain ⟨fs', k₁⟩ := out
          rw [hrec] at h
          cases h
          simp only [sameShape]
          exact encObjWith_sameShape _ key (fun c k c' k' hc => ih c k c' k' hc)
            fs k _ _ hrec
      | null => simp only [encrypt_at_path] at h; cases h; exact sameShape_refl _
      | bool b => simp only [encrypt_at_path] at h; cases h; exact sameShape_refl _
      | num m => simp only [encrypt_at_path] at h; cases h; exact sameShape_refl _
      | str s => simp only [encrypt_at_path] at h; cases h; exact sameShape_refl _
      | arr xs => simp only [encrypt_at_path] at h; cases h; exact sameShape_refl _
    | arrayItem =>
      cases v with
      | arr xs =>
        simp only [encrypt_at_path] at h
        cases hrec : encArrWith (fun c k' => encrypt_at_path dek ns rest c k') xs k with
        | error e => rw [hrec] at h; cases h
        | ok out =>
          obtain ⟨xs', k₁⟩ := out
          rw [hrec] at h
          cases h
          simp only [sameShape]
          exact encArrWith_sameShape _ (fun c k c' k' hc => ih c k c' k' hc)
            xs k _ _ hrec
      | null => simp only [encrypt_at_path] at h; cases h; exact sameShape_refl _
      | bool b => simp only [encrypt_at_path] at h; cases h; exact sameShape_refl _
      | num m => simp only [encrypt_at_path] at h; cases h; exact sameShape_refl _
      | str s => simp only [encrypt_at_path] at h; cases h; exact sameShape_refl _
      | obj fs => simp only [encrypt_at_path] at h; cases h; exact sameShape_refl _

/-- The object step is the identity when the traversal is the identity on
the bound value of the key. -/
theorem encObjWith_id (f : Json → Nat → Except CipherError (Json × Nat)) (key : String) :
    ∀ fs k, (∀ c, lookupField key fs = some c → f c k = .ok (c, k)) →
    encObjWith f key fs k = .ok (fs, k) := by
  intro fs
  induction fs with
  | nil => intro k _; rfl
  | cons entry tl ih =>
    intro k h
    obtain ⟨name, child⟩ := entry
    simp only [encObjWith]
    by_cases hk : name = key
    · rw [if_pos hk]
      rw [h child (by simp [lookupField, hk])]
    · rw [if_neg hk]
      rw [ih k (fun c hc => h c (by simpa [lookupField, hk] using hc))]

/-- The array step is the identity when the traversal is the identity on
every element. -/
theorem encArrWith_id (f : Json → Nat → Except CipherError (Json × Nat)) :
    ∀ xs k, (∀ c ∈ xs, f c k = .ok (c, k)) →
    encArrWith f xs k = .ok (xs, k) := by
  intro xs
  induction xs with
  | nil => intro k _; rfl
  | cons x tl ih =>
    intro k h
    simp only [encArrWith]
    rw [h x (by simp)]
    dsimp only
    rw [ih k (fun c hc => h c (by simp [hc]))]

/-- When the segment list reaches no string leaf in a value, the traversal
returns the value, and the nonce counter, unchanged. -/
theorem encrypt_at_path_no_match (dek : List Nat) (ns : Nat → List Nat) :
    ∀ (segs : List PathSegment) (v : Json) (k : Nat),
    hasMatch segs v = false → encrypt_at_path dek ns segs v k = .ok (v, k) := by
  intro segs
  induction segs with
  | nil =>
    intro v k h
    cases v with
    | str s => simp [hasMatch, isStr] at h
    | null => simp [encrypt_at_path]
    | bool b => simp [encrypt_at_path]
    | num m => simp [encrypt_at_path]
    | arr xs => simp [encrypt_at_path]
    | obj fs => simp [encrypt_at_path]
  | cons seg rest ih =>
    intro v k h
    cases seg with
    | key key =>
      cases v with
      | obj fs =>
        simp only [hasMatch] at h
        simp only [encrypt_at_path]
        rw [encObjWith_id _ key fs k]
        intro c hc
        rw [hc] at h
        exact ih c k h
      | null => simp [encrypt_at_path]
      | bool b => simp [encrypt_at_path]
      | num m => simp [encrypt_at_path]
      | str s => simp [encrypt_at_path]
      | arr xs => simp [encrypt_at_path]
    | arrayItem =>
      cases v with
      | arr xs =>
        simp only [hasMatch, List.any_eq_false] at h
        simp only [encrypt_at_path]
        rw [encArrWith_id _ xs k (fun c hc => ih c k (by simpa using h c hc))]
      | null => simp [encrypt_at_path]
      | bool b => simp [encrypt_at_path]
      | num m => simp [encrypt_at_path]
      | str s => simp [encrypt_at_path]
      | obj fs => simp [encrypt_at_path]

/-- What the object step produces: bindings of other names are untouched,
and the key's binding is either absent (then nothing changes) or rewritten
by one recursive call. -/
theorem encObjWith_spec (f : Json → Nat → Except CipherError (Json × Nat)) (key : String) :
    ∀ fs k fs' k', encObjWith f key fs k = .ok (fs', k') →
      (∀ n, n ≠ key → lookupField n fs' = lookupField n fs) ∧
      ((lookupField key fs = none ∧ fs' = fs ∧ k' = k) ∨
       (∃ c c', lookupField key fs = some c ∧ lookupField key fs' = some c' ∧
         f c k = .ok (c', k'))) := by
  intro fs
  induction fs with
  | nil =>
    intro k fs' k' h
    simp only [encObjWith] at h
    cases h
    exact ⟨fun n _ => rfl, Or.inl ⟨rfl, rfl, rfl⟩⟩
  | cons entry tl ih =>
    intro k fs' k' h
    obtain ⟨name, child⟩ := entry
    simp only [encObjWith] at h
    by_cases hk : name = key
    · rw [if_pos hk] at h
      cases hfc : f child k with
      | error e => rw [hfc] at h; cases h
      | ok out =>
        obtain ⟨child', k₁⟩ := out
        rw [hfc] at h
        cases h
        subst hk
        constructor
        · intro n hn
          simp [lookupField, Ne.symm hn]
        · exact Or.inr ⟨child, child', by simp [lookupField], by simp [lookupField], hfc⟩
    · rw [if_neg hk] at h
      cases hrec : encObjWith f key tl k with
      | error e => rw [hrec] at h; cases h
      | ok out =>
        obtain ⟨tl', k₁⟩ := out
        rw [hrec] at h
        cases h
        obtain ⟨hother, hbranch⟩ := ih k _ _ hrec
        constructor
        · intro n hn
          by_cases hnn : name = n
          · simp [lookupField, hnn]
          · simp [lookupField, hnn, hother n hn]
        · rcases hbranch with ⟨h1, rfl, rfl⟩ | ⟨c, c', h1, h2, h3⟩
          · exact Or.inl ⟨by simp [lookupField, hk, h1], rfl, rfl⟩
          · exact Or.inr ⟨c, c', by simp [lookupField, hk, h1], by simp [lookupField, hk, h2], h3⟩

/-- What the array step produces: same length, and each element is the
image of the corresponding input element under one recursive call. -/
theorem encArrWith_spec (f : Json → Nat → Except CipherError (Json × Nat)) :
    ∀ xs k xs' k', encArrWith f xs k = .ok (xs', k') →
      xs'.length = xs.length ∧
      ∀ i c, xs.get? i = some c →
        ∃ c' a b, xs'.get? i = some c' ∧ f c a = .ok (c', b) := by
  intro xs
  induction xs with
  | nil =>
    intro k xs' k' h
    simp only [encArrWith] at h
    cases h
    exact ⟨rfl, fun i c hc => by simp at hc⟩
  | cons x tl ih =>
    intro k xs' k' h
    simp only [encArrWith] at h
    cases hfc : f x k with
    | error e => rw [hfc] at h; cases h
    | ok out =>
      obtain ⟨x', k₁⟩ := out
      rw [hfc] at h
      dsimp only at h
      cases hrec : encArrWith f tl k₁ with
      | error e => rw [hrec] at h; cases h
      | ok out2 =>
        obtain ⟨tl', k₂⟩ := out2
        rw [hrec] at h
        cases h
        obtain ⟨hlen, helem⟩ := ih k₁ _ _ hrec
        refine ⟨by simp [hlen], fun i c hc => ?_⟩
        cases i with
        | zero =>
          cases hc
          exact ⟨x', k, k₁, rfl, hfc⟩
        | succ i =>
          simp only [List.get?_cons_succ] at hc ⊢
          exact helem i c hc

/-- The frame property of one traversal: at every pointer that is not on
the spine of, at, or below a string leaf the segment list reaches, the
document is unchanged. -/
theorem encrypt_at_path_frame (dek : List Nat) (ns : Nat → List Nat) :
    ∀ (segs : List PathSegment) (v : Json) (k : Nat) (v' : Json) (k' : Nat),
    encrypt_at_path dek ns segs v k = .ok (v', k') →
    ∀ p, encTouches segs v p = false → getAt v' p = getAt v p := by
  intro segs
  induction segs with
  | nil =>
    intro v k v' k' h p hp
    cases p with
    | nil =>
      have hm : hasMatch [] v = false := by simpa [encTouches] using hp
      have hid := encrypt_at_path_no_match dek ns [] v k hm
      rw [h] at hid
      cases hid
      rfl
    | cons st p' =>
      have hv : isStr v = false := by simpa [encTouches] using hp
      have hid := encrypt_at_path_no_match dek ns [] v k (by simpa [hasMatch] using hv)
      rw [h] at hid
      cases hid
      rfl
  | cons seg rest ih =>
    intro v k v' k' h p hp
    cases p with
    | nil =>
      have hm : hasMatch (seg :: rest) v = false := by simpa [encTouches] using hp
      have hid := encrypt_at_path_no_match dek ns (seg :: rest) v k hm
      rw [h] at hid
      cases hid
      rfl
    | cons st p' =>
      cases seg with
      | key key =>
        cases v with
        | obj fs =>
          simp only [encrypt_at_path] at h
          cases hrec : encObjWith (fun c k' => encrypt_at_path dek ns rest c k') key fs k with
          | error e => rw [hrec] at h; cases h
          | ok out =>
            obtain ⟨fs', k₁⟩ := out
            rw [hrec] at h
            cases h
            obtain ⟨hother, hbranch⟩ := encObjWith_spec _ key fs k _ _ hrec
            cases st with
            | field n =>
              by_cases hn : n = key
              · subst hn
                simp only [encTouches, beq_self_eq_true, Bool.true_and] at hp
                rcases hbranch with ⟨hnone, rfl, rfl⟩ | ⟨c, c', h1, h2, h3⟩
                · rfl
                · rw [h1] at hp
                  dsimp only at hp
                  simp only [getAt, h1, h2]
                  exact ih c _ c' _ h3 p' hp
              · simp only [getAt, hother n hn]
            | idx i => simp [getAt]
        | null => simp only [encrypt_at_path] at h; cases h; rfl
        | bool b => simp only [encrypt_at_path] at h; cases h; rfl
        | num m => simp only [encrypt_at_path] at h; cases h; rfl
        | str s => simp only [encrypt_at_path] at h; cases h; rfl
        | arr xs => simp only [encrypt_at_path] at h; cases h; rfl
      | arrayItem =>
        cases v with
        | arr xs =>
          simp only [encrypt_at_path] at h
          cases hrec : encArrWith (fun c k' => encrypt_at_path dek ns rest c k') xs k with
          | error e => rw [hrec] at h; cases h
          | ok out =>
            obtain ⟨xs', k₁⟩ := out
            rw [hrec] at h
            cases h
            obtain ⟨hlen, helem⟩ := encArrWith_spec _ xs k _ _ hrec
            cases st with
            | idx i =>
              cases hxi : xs.get? i with
              | none =>
                have hxi' : xs'.get? i = none := by
                  rw [List.get?_eq_none] at hxi ⊢
                  omega
                simp only [getAt, hxi, hxi']
              | some c =>
                simp only [encTouches, hxi] at hp
                obtain ⟨c', a, b, hxi', hfc⟩ := helem i c hxi
                simp only [getAt, hxi, hxi']
                exact ih c a c' b hfc p' hp
            | field n => simp [getAt]
        | null => simp only [encrypt_at_path] at h; cases h; rfl
        | bool b => simp only [encrypt_at_path] at h; cases h; rfl
        | num m => simp only [encrypt_at_path] at h; cases h; rfl
        | str s => simp only [encrypt_at_path] at h; cases h; rfl
        | obj fs => simp only [encrypt_at_path] at h; cases h; rfl

/-- C7: the pipeline modifies only string leaves reached by following some
PII path. First part: for every payload, path set, key and nonce source,
at every pointer that is not on the spine of, at, or below a string leaf
reached by some path of the set, the output document reads exactly as the
input (in particular a path segment that does not match the payload's
shape touches nothing, so its whole subtree is unchanged). Second part: a
non-string leaf at the end of a path is left untouched and consumes no
nonce. -/
theorem encrypt_pii_fields_frame (dek : List Nat) (ns : Nat → List Nat) :
    (∀ (paths : List String) (v : Json) (k : Nat) (v' : Json) (k' : Nat),
      encrypt_pii_fields dek ns paths v k = .ok (v', k') →
      ∀ p, (paths.all fun path => !encTouches (parse_path path) v p) = true →
      getAt v' p = getAt v p) ∧
    (∀ (w : Json) (k : Nat), isStr w = false →
      encrypt_at_path dek ns [] w k = .ok (w, k)) := by
  constructor
  · intro paths
    induction paths with
    | nil =>
      intro v k v' k' h p hp
      simp only [encrypt_pii_fields] at h
      cases h
      rfl
    | cons path rest ih =>
      intro v k v' k' h p hp
      simp only [encrypt_pii_fields] at h
      cases hstep : encrypt_at_path dek ns (parse_path path) v k with
      | error e => rw [hstep] at h; cases h
      | ok out =>
        obtain ⟨v₁, k₁⟩ := out
        rw [hstep] at h
        simp only [List.all_cons, Bool.and_eq_true, Bool.not_eq_true'] at hp
        obtain ⟨hp1, hp2⟩ := hp
        have hshape : sameShape v v₁ = true :=
          encrypt_at_path_sameShape dek ns (parse_path path) v k v₁ k₁ hstep
        have hstep_frame : getAt v₁ p = getAt v p :=
          encrypt_at_path_frame dek ns (parse_path path) v k v₁ k₁ hstep p hp1
        have hrest : (rest.all fun q => !encTouches (parse_path q) v₁ p) = true := by
          rw [List.all_eq_true] at hp2 ⊢
          intro q hq
          have hv := hp2 q hq
          rwa [← encTouches_sameShape p (parse_path q) v v₁ hshape]
        have hih := ih v₁ k₁ v' k' h p hrest
        rw [hih, hstep_frame]
  · intro w k hw
    exact encrypt_at_path_no_match dek ns [] w k (by simpa [hasMatch] using hw)

/-- Witness for C7: a payload without the PII field is returned unchanged
by the pipeline and its name binding reads the same before and after; a
number leaf at the end of a path is untouched. -/
theorem encrypt_pii_fields_frame_witness :
    (encrypt_pii_fields [] (fun _ => []) ["ssn"]
        (.obj [("name", .str "Bob")]) 0 = .ok (.obj [("name", .str "Bob")], 0) ∧
      (["ssn"].all fun path =>
        !encTouches (parse_path path) (.obj [("name", .str "Bob")]) [Step.field "name"]) = true ∧
      getAt (.obj [("name", .str "Bob")]) [Step.field "name"] =
        getAt (.obj [("name", .str "Bob")]) [Step.field "name"]) ∧
    (isStr (.num 5) = false ∧
      encrypt_at_path [] (fun _ => []) [] (.num 5) 0 = .ok (.num 5, 0)) := by
  have hm : hasMatch (parse_path "ssn") (Json.obj [("name", Json.str "Bob")]) = false := by
    rw [show parse_path "ssn" = [PathSegment.key "ssn"] from rfl]
    simp [hasMatch, lookupField]
  have hstep := encrypt_at_path_no_match [] (fun _ => []) (parse_path "ssn")
    (Json.obj [("name", Json.str "Bob")]) 0 hm
  have h1 : encrypt_pii_fields [] (fun _ => []) ["ssn"]
      (.obj [("name", .str "Bob")]) 0 = .ok (.obj [("name", .str "Bob")], 0) := by
    simp only [encrypt_pii_fields, hstep]
  have hp : (["ssn"].all fun path =>
      !encTouches (parse_path path) (.obj [("name", .str "Bob")]) [Step.field "name"]) = true := by
    simp only [List.all_cons, List.all_nil, Bool.and_true]
    rw [show parse_path "ssn" = [PathSegment.key "ssn"] from rfl]
    simp [encTouches, lookupField]
  refine ⟨⟨h1, hp, ?_⟩, ?_, ?_⟩
  · exact (encrypt_pii_fields_frame [] (fun _ => [])).1 ["ssn"]
      (.obj [("name", .str "Bob")]) 0 (.obj [("name", .str "Bob")]) 0 h1
      [Step.field "name"] hp
  · rfl
  · exact (encrypt_pii_fields_frame [] (fun _ => [])).2 (.num 5) 0 rfl
